import Mathlib

/-!
Verification of the Gillespie SSA engine in `outbreak/outbreak.py`.

Shallow embedding of the module's three core pieces:

* `sample_index` — the inverse-CDF weighted index sampler (lines 37–53);
* `sample_delay` — the exponential waiting-time sampler (lines 56–59);
* `Outbreak.run` — the SSA loop (lines 62–101).

Python floats that only ever pass through `+`, `*` and comparisons are
modelled as exact rationals (`ℚ`), which keeps every definition
executable; `sample_delay`, which genuinely computes a logarithm, is
modelled over `ℝ`.  The pseudo-random source `random()` is made explicit:
every function that draws a uniform variate takes it as an argument, and
the engine loop is parametrised by the streams of sampled waiting times
and uniform index draws it consumes.  `assert` failures and Python
runtime errors are modelled as `Except.error` with a message identifying
the failing check; the trajectory dict, whose keys are inserted in
increasing order, is modelled as the association list of its insertions.
-/

namespace Epidemios

/-- The cumulative-sum scan of `sample_index` (lines 46–50 of the source):
`cum = inp[0]; i = 0; while cum < target and i + 1 < len(inp): i += 1; cum += inp[i]`.
`rest` holds the elements after position `i`, so the loop continues while
`cum < target` and `rest` is non-empty. -/
def sampleScanGo (target : ℚ) : List ℚ → ℕ → ℚ → ℕ × ℚ
  | [], i, cum => (i, cum)
  | w :: ws, i, cum =>
    if cum < target then sampleScanGo target ws (i + 1) (cum + w) else (i, cum)

/-- Python `sample_index(inp)` (lines 37–53): assert the list is non-empty and
non-negative, draw `target = random() * sum(inp)` (the uniform draw `r`
is the explicit argument), run the cumulative scan, and return the index
if the cumulative sum reached the target, else `None`. -/
def sample_index (inp : List ℚ) (r : ℚ) : Except String (Option ℕ) :=
  if 1 ≤ inp.length then
    if ∀ w ∈ inp, 0 ≤ w then
      let target : ℚ := r * inp.sum
      let res := sampleScanGo target inp.tail 0 (inp.headD 0)
      if target ≤ res.2 then Except.ok (some res.1) else Except.ok none
    else Except.error "AssertionError: sample_index requires non-negative entries"
  else Except.error "AssertionError: sample_index requires a non-empty list"

/-- Python `sample_delay(inp)` (lines 56–59): `assert inp > 0.0` then return
`-1.0/inp * log(random())`; the uniform draw `u` is the explicit
argument. -/
noncomputable def sample_delay (u : ℝ) (inp : ℝ) : Except String ℝ :=
  if 0 < inp then Except.ok (-1 / inp * Real.log u)
  else Except.error "AssertionError: sample_delay requires a positive rate"

/-- An entry `f` of `self.events`: `f[0]` is the propensity callable,
invoked on the pair `(state, parameters)`, and `f[1]` is the effect
list.  The construction-time asserts `callable(f[0])` and
`isinstance(f[1], list)` (lines 69–71) hold by typing here; nothing more
is checked at construction. -/
structure Event where
  propensity : List ℚ × List ℚ → ℚ
  effect : List ℚ

/-- The `Outbreak` object: `parameters`, `runtime`, `state`, `events`
(lines 64–68). -/
structure Outbreak where
  parameters : List ℚ
  runtime : ℚ
  state : List ℚ
  events : List Event

/-- One trajectory value `[self.state, event_delay, event_identity,
event_differential]` (line 99). -/
structure TrajRecord where
  stateAfter : List ℚ
  eventDelay : ℚ
  eventIdentity : ℕ
  eventDifferential : List ℚ
  deriving DecidableEq

/-- The propensity vector `pmf = [f[0]((self.state, self.parameters)) for f in self.events]`
(line 79). -/
def pmfOf (ob : Outbreak) : List ℚ :=
  ob.events.map fun f => f.propensity (ob.state, ob.parameters)

/-- The effect table `tmp = [f[1] for f in self.events]` (line 81). -/
def effectsOf (ob : Outbreak) : List (List ℚ) :=
  ob.events.map Event.effect

/-- The update `self.state = [sum(_) for _ in zip(event_differential, self.state)]`
(line 97).  Python's `zip` silently truncates to the shorter operand. -/
def applyEffect (eventDifferential state : List ℚ) : List ℚ :=
  (eventDifferential.zip state).map fun p => p.1 + p.2

/-- One iteration of the `while` body of `run()` (lines 78–99), given the
current time `t`, the waiting time `delay` produced by `sample_delay`
(whose own assert `0 < λ` is exactly the sum check re-established here),
and the uniform draw `r` consumed by `sample_index`.  Returns the updated
object, the advanced time, and the record appended to the trajectory. -/
def runStep (ob : Outbreak) (t delay r : ℚ) :
    Except String (Outbreak × ℚ × TrajRecord) :=
  let pmf := pmfOf ob
  let tmp := effectsOf ob
  if ∀ p ∈ pmf, 0 ≤ p then
    if 0 < pmf.sum then
      let t2 := t + delay
      match sample_index pmf r with
      | Except.error e => Except.error e
      | Except.ok none =>
        Except.error "TypeError: list indices must be integers, not NoneType"
      | Except.ok (some i) =>
        match tmp.get? i with
        | none => Except.error "IndexError: list index out of range"
        | some eventDifferential =>
          let newState := applyEffect eventDifferential ob.state
          Except.ok ({ ob with state := newState }, t2,
            ⟨newState, delay, i, eventDifferential⟩)
    else Except.error "AssertionError: sum(pmf) > 0.0"
  else Except.error "AssertionError: all(_ >= 0.0 for _ in pmf)"

/-- The `while t < self.runtime` loop of `run()` (lines 75–101), with an
explicit iteration bound `fuel` (the Python loop has none; exhausting the
bound while still below the horizon reports an error rather than a
result).  `k` counts iterations so each one consumes fresh randomness,
and `acc` is the trajectory built so far in insertion order. -/
def runAux (delays idxDraws : ℕ → ℚ) :
    ℕ → Outbreak → ℚ → ℕ → List (ℚ × TrajRecord) →
    Except String (Outbreak × List (ℚ × TrajRecord))
  | 0, ob, t, _, acc =>
    if t < ob.runtime then Except.error "fuel exhausted before the horizon"
    else Except.ok (ob, acc)
  | n + 1, ob, t, k, acc =>
    if t < ob.runtime then
      match runStep ob t (delays k) (idxDraws k) with
      | Except.error e => Except.error e
      | Except.ok (ob2, t2, entry) =>
        runAux delays idxDraws n ob2 t2 (k + 1) (acc ++ [(t2, entry)])
    else Except.ok (ob, acc)

/-- Method `run()` (lines 73–101): start at `t = 0` with an empty trajectory. -/
def Outbreak.run (ob : Outbreak) (delays idxDraws : ℕ → ℚ) (fuel : ℕ) :
    Except String (Outbreak × List (ℚ × TrajRecord)) :=
  runAux delays idxDraws fuel ob 0 0 []

/-- The cumulative weight through index `i`:
`weights[0] + ... + weights[i]`. -/
def prefixSum (inp : List ℚ) (i : ℕ) : ℚ :=
  (inp.take (i + 1)).sum

/-- The post-step state of a step result, when the step succeeded. -/
def stepState (res : Except String (Outbreak × ℚ × TrajRecord)) :
    Option (List ℚ) :=
  match res with
  | Except.ok (ob, _, _) => some ob.state
  | Except.error _ => none

/-- A model is well-posed when, at every state, every propensity is
non-negative and their sum is strictly positive. -/
def WellPosed (events : List Event) (parameters : List ℚ) : Prop :=
  ∀ st : List ℚ,
    (∀ p ∈ events.map fun f => f.propensity (st, parameters), 0 ≤ p) ∧
    0 < (events.map fun f => f.propensity (st, parameters)).sum

/-- The cumulative scan stops at the first position (among those it
visits) whose running sum reaches the target, or at the end of the
list.  `k` is the number of loop iterations performed. -/
theorem sampleScanGo_spec (target : ℚ) :
    ∀ (rest : List ℚ) (i : ℕ) (cum : ℚ),
      ∃ k, k ≤ rest.length ∧
        sampleScanGo target rest i cum = (i + k, cum + (rest.take k).sum) ∧
        (∀ m, m < k → cum + (rest.take m).sum < target) ∧
        (target ≤ cum + (rest.take k).sum ∨ k = rest.length) := by
  intro rest
  induction rest with
  | nil =>
    intro i cum
    exact ⟨0, by simp [sampleScanGo]⟩
  | cons w ws ih =>
    intro i cum
    by_cases hc : cum < target
    · obtain ⟨k, hk, heq, hmin, hlast⟩ := ih (i + 1) (cum + w)
      refine ⟨k + 1, by simpa using Nat.succ_le_succ hk, ?_, ?_, ?_⟩
      · rw [sampleScanGo, if_pos hc, heq]
        simp only [List.take_succ_cons, List.sum_cons, Prod.mk.injEq]
        constructor
        · omega
        · ring
      · intro m hm
        match m with
        | 0 => simpa using hc
        | m + 1 =>
          have := hmin m (by omega)
          simp only [List.take_succ_cons, List.sum_cons]
          linarith
      · rcases hlast with h | h
        · left
          simp only [List.take_succ_cons, List.sum_cons]
          linarith
        · right
          simp [h]
    · refine ⟨0, Nat.zero_le _, ?_, fun m hm => absurd hm (Nat.not_lt_zero m),
        Or.inl (by simpa using not_lt.mp hc)⟩
      rw [sampleScanGo, if_neg hc]
      simp

/-- Running sums of the scan, re-expressed as prefix sums of the full
input list. -/
theorem prefixSum_cons (a : ℚ) (rest : List ℚ) (m : ℕ) :
    a + (rest.take m).sum = prefixSum (a :: rest) m := by
  simp [prefixSum, List.take_succ_cons]

/-- Under the sampler's preconditions and a uniform draw `r ∈ [0, 1)`,
`sample_index` returns the smallest index whose cumulative weight
reaches `r * sum`, and that index is in range. -/
theorem sample_index_spec (inp : List ℚ) (r : ℚ) (hne : inp ≠ [])
    (hnn : ∀ w ∈ inp, 0 ≤ w) (h1 : r < 1) :
    ∃ i, sample_index inp r = Except.ok (some i) ∧ i < inp.length ∧
      r * inp.sum ≤ prefixSum inp i ∧
      ∀ j, j < i → prefixSum inp j < r * inp.sum := by
  obtain ⟨a, rest, rfl⟩ := List.exists_cons_of_ne_nil hne
  obtain ⟨k, hk, heq, hmin, hlast⟩ := sampleScanGo_spec (r * (a :: rest).sum) rest 0 a
  have hreach : r * (a :: rest).sum ≤ a + (rest.take k).sum := by
    rcases hlast with h | h
    · exact h
    · have hsumnn : 0 ≤ (a :: rest).sum := List.sum_nonneg hnn
      have hmul : r * (a :: rest).sum ≤ 1 * (a :: rest).sum :=
        mul_le_mul_of_nonneg_right h1.le hsumnn
      simpa [h, List.take_length, List.sum_cons] using hmul
  have hlen : 1 ≤ (a :: rest).length := by simp
  refine ⟨k, ?_, by simpa using Nat.lt_succ_of_le hk, ?_, ?_⟩
  · simp only [sample_index, if_pos hlen, if_pos hnn, List.tail_cons, List.headD_cons]
    rw [heq]
    simp only [if_pos hreach, Nat.zero_add]
  · rw [← prefixSum_cons]
    exact hreach
  · intro j hj
    rw [← prefixSum_cons]
    exact hmin j hj

/-- If the input passes both asserts, `sample_index` does not raise:
it returns either an index or `None`. -/
theorem sample_index_ok (inp : List ℚ) (r : ℚ) (hne : inp ≠ [])
    (hnn : ∀ w ∈ inp, 0 ≤ w) :
    ∃ o, sample_index inp r = Except.ok o := by
  have hlen : 1 ≤ inp.length := List.length_pos.mpr hne
  simp only [sample_index, if_pos hlen, if_pos hnn]
  split
  · exact ⟨_, rfl⟩
  · exact ⟨_, rfl⟩

/-- Decomposition of a successful loop iteration: the time advances by
exactly the sampled delay, only the `state` field of the object changes,
the new state is the (truncating) elementwise sum of the chosen effect
and the old state, and the record holds the new state, the delay, the
chosen index and its effect. -/
theorem runStep_ok (ob : Outbreak) (t d r : ℚ) (ob2 : Outbreak) (t2 : ℚ)
    (entry : TrajRecord)
    (h : runStep ob t d r = Except.ok (ob2, t2, entry)) :
    t2 = t + d ∧ ob2.parameters = ob.parameters ∧ ob2.runtime = ob.runtime ∧
    ob2.events = ob.events ∧
    ob2.state = applyEffect entry.eventDifferential ob.state ∧
    entry.stateAfter = ob2.state ∧ entry.eventDelay = d ∧
    (effectsOf ob).get? entry.eventIdentity = some entry.eventDifferential ∧
    entry.eventIdentity < ob.events.length := by
  by_cases h1 : ∀ p ∈ pmfOf ob, 0 ≤ p
  · by_cases h2 : 0 < (pmfOf ob).sum
    · rcases hsi : sample_index (pmfOf ob) r with e | oi
      · simp only [runStep, if_pos h1, if_pos h2, hsi] at h
        exact Except.noConfusion h
      · rcases oi with _ | i
        · simp only [runStep, if_pos h1, if_pos h2, hsi] at h
          exact Except.noConfusion h
        · rcases hg : (effectsOf ob).get? i with _ | eff
          · simp only [runStep, if_pos h1, if_pos h2, hsi, hg] at h
            exact Except.noConfusion h
          · simp only [runStep, if_pos h1, if_pos h2, hsi, hg,
              Except.ok.injEq, Prod.mk.injEq] at h
            obtain ⟨hob, ht, hentry⟩ := h
            subst hob
            subst ht
            subst hentry
            have hlt : i < ob.events.length := by
              have := (List.get?_eq_some.mp hg).1
              simpa [effectsOf] using this
            exact ⟨rfl, rfl, rfl, rfl, rfl, rfl, rfl, hg, hlt⟩
    · simp only [runStep, if_pos h1, if_neg h2] at h
      exact Except.noConfusion h
  · simp only [runStep, if_neg h1] at h
    exact Except.noConfusion h

/-- If the propensity vector passes both asserts and the index draw is
in `[0, 1)`, the iteration succeeds. -/
theorem runStep_isOk (ob : Outbreak) (t d r : ℚ)
    (hnn : ∀ p ∈ pmfOf ob, 0 ≤ p) (hpos : 0 < (pmfOf ob).sum)
    (h1 : r < 1) :
    ∃ ob2 t2 entry, runStep ob t d r = Except.ok (ob2, t2, entry) := by
  have hne : pmfOf ob ≠ [] := by
    intro h
    rw [h] at hpos
    simp at hpos
  obtain ⟨i, hsi, hlt, _, _⟩ := sample_index_spec (pmfOf ob) r hne hnn h1
  have hlen : i < (effectsOf ob).length := by
    simpa [effectsOf, pmfOf] using hlt
  rcases hres : runStep ob t d r with e | res
  · exfalso
    simp only [runStep, if_pos hnn, if_pos hpos, hsi, List.get?_eq_get hlen] at hres
    exact Except.noConfusion hres
  · exact ⟨res.1, res.2.1, res.2.2, rfl⟩

/-- Loop invariant of `runAux`: a successful run leaves `parameters`,
`runtime` and `events` untouched, its recorded times are strictly
increasing (given strictly positive waiting times), and either no
iteration ran, or the last record holds the final state and the final
time, which is past the horizon and bounds every recorded time. -/
theorem runAux_spec (delays idxDraws : ℕ → ℚ) (hd : ∀ m, 0 < delays m) :
    ∀ (j : ℕ) (ob : Outbreak) (t : ℚ) (k : ℕ) (acc : List (ℚ × TrajRecord))
      (ob2 : Outbreak) (tr : List (ℚ × TrajRecord)),
      runAux delays idxDraws j ob t k acc = Except.ok (ob2, tr) →
      (∀ q ∈ acc, q.1 ≤ t) →
      (acc.map Prod.fst).Pairwise (· < ·) →
      ob2.parameters = ob.parameters ∧ ob2.runtime = ob.runtime ∧
      ob2.events = ob.events ∧
      (tr.map Prod.fst).Pairwise (· < ·) ∧
      ∃ tfin, ob.runtime ≤ tfin ∧ t ≤ tfin ∧ (∀ q ∈ tr, q.1 ≤ tfin) ∧
        ((tr = acc ∧ ob2 = ob ∧ tfin = t) ∨
         (∃ p, tr.getLast? = some p ∧ p.1 = tfin ∧ ob2.state = p.2.stateAfter)) := by
  intro j
  induction j with
  | zero =>
    intro ob t k acc ob2 tr h hacc hsort
    by_cases ht : t < ob.runtime
    · simp only [runAux, if_pos ht] at h
      exact Except.noConfusion h
    · simp only [runAux, if_neg ht, Except.ok.injEq, Prod.mk.injEq] at h
      obtain ⟨hob, htr⟩ := h
      subst hob
      subst htr
      exact ⟨rfl, rfl, rfl, hsort, t, not_lt.mp ht, le_refl t, hacc,
        Or.inl ⟨rfl, rfl, rfl⟩⟩
  | succ n ih =>
    intro ob t k acc ob2 tr h hacc hsort
    by_cases ht : t < ob.runtime
    · simp only [runAux, if_pos ht] at h
      rcases hstep : runStep ob t (delays k) (idxDraws k) with e | res
      · rw [hstep] at h
        exact Except.noConfusion h
      · rw [hstep] at h
        obtain ⟨obS, tS, entryS⟩ := res
        obtain ⟨htS, hpar, hrt, hev, hstate, hrec, hdel, hget, hlt⟩ :=
          runStep_ok ob t (delays k) (idxDraws k) obS tS entryS hstep
        have htlt : t < tS := by
          rw [htS]
          linarith [hd k]
        have hacc2 : ∀ q ∈ acc ++ [(tS, entryS)], q.1 ≤ tS := by
          intro q hq
          rcases List.mem_append.mp hq with hq | hq
          · exact le_of_lt (lt_of_le_of_lt (hacc q hq) htlt)
          · simp only [List.mem_singleton] at hq
            rw [hq]
        have hsort2 : ((acc ++ [(tS, entryS)]).map Prod.fst).Pairwise (· < ·) := by
          rw [List.map_append, List.pairwise_append]
          refine ⟨hsort, by simp, ?_⟩
          intro x hx y hy
          simp only [List.map_cons, List.map_nil, List.mem_singleton] at hy
          subst hy
          obtain ⟨q, hq, rfl⟩ := List.mem_map.mp hx
          exact lt_of_le_of_lt (hacc q hq) htlt
        obtain ⟨hpar2, hrt2, hev2, hsortT, tfin, hrtfin, htfin, hall, hcase⟩ :=
          ih obS tS (k + 1) (acc ++ [(tS, entryS)]) ob2 tr h hacc2 hsort2
        refine ⟨hpar2.trans hpar, hrt2.trans hrt, hev2.trans hev, hsortT, tfin,
          hrt ▸ hrtfin, le_of_lt (lt_of_lt_of_le htlt htfin), hall, ?_⟩
        rcases hcase with ⟨htr, hob, htf⟩ | ⟨p, hp, hpt, hps⟩
        · right
          refine ⟨(tS, entryS), ?_, ?_, ?_⟩
          · rw [htr]
            exact List.getLast?_concat _
          · exact htf.symm
          · rw [hob, hrec]
        · exact Or.inr ⟨p, hp, hpt, hps⟩
    · simp only [runAux, if_neg ht, Except.ok.injEq, Prod.mk.injEq] at h
      obtain ⟨hob, htr⟩ := h
      subst hob
      subst htr
      exact ⟨rfl, rfl, rfl, hsort, t, not_lt.mp ht, le_refl t, hacc,
        Or.inl ⟨rfl, rfl, rfl⟩⟩

/-- If the model is well-posed, every index draw lies below 1, and the
waiting times supplied up to step `j` already carry the clock past the
horizon, then the loop completes within `j` iterations. -/
theorem runAux_total (delays idxDraws : ℕ → ℚ) (E : List Event) (P : List ℚ)
    (Hwell : WellPosed E P) (hidx : ∀ m, idxDraws m < 1) :
    ∀ (j : ℕ) (ob : Outbreak) (t : ℚ) (k : ℕ) (acc : List (ℚ × TrajRecord)),
      ob.events = E → ob.parameters = P →
      ob.runtime ≤ t + ∑ i in Finset.range j, delays (k + i) →
      ∃ res, runAux delays idxDraws j ob t k acc = Except.ok res := by
  intro j
  induction j with
  | zero =>
    intro ob t k acc hE hP hsum
    simp only [Finset.range_zero, Finset.sum_empty, add_zero] at hsum
    simp only [runAux, if_neg (not_lt.mpr hsum)]
    exact ⟨_, rfl⟩
  | succ n ih =>
    intro ob t k acc hE hP hsum
    by_cases ht : t < ob.runtime
    · have hw := Hwell ob.state
      have hnn : ∀ p ∈ pmfOf ob, 0 ≤ p := by
        simp only [pmfOf]
        rw [hE, hP]
        exact hw.1
      have hpos : 0 < (pmfOf ob).sum := by
        simp only [pmfOf]
        rw [hE, hP]
        exact hw.2
      obtain ⟨ob2, t2, entry, hstep⟩ :=
        runStep_isOk ob t (delays k) (idxDraws k) hnn hpos (hidx k)
      obtain ⟨ht2, hpar, hrt, hev, -, -, -, -, -⟩ :=
        runStep_ok ob t (delays k) (idxDraws k) ob2 t2 entry hstep
      simp only [runAux, if_pos ht]
      rw [hstep]
      apply ih ob2 t2 (k + 1) _ (hev.trans hE) (hpar.trans hP)
      have hshift : ∑ i in Finset.range (n + 1), delays (k + i)
          = (∑ i in Finset.range n, delays (k + 1 + i)) + delays k := by
        rw [Finset.sum_range_succ']
        congr 1
        exact Finset.sum_congr rfl fun i _ => by
          rw [show k + (i + 1) = k + 1 + i from by omega]
      rw [hrt, ht2]
      rw [hshift] at hsum
      linarith
    · simp only [runAux, if_neg ht]
      exact ⟨_, rfl⟩

/-- Python's `zip` truncates: the updated state has the length of the
shorter of the effect vector and the state. -/
theorem applyEffect_length (e s : List ℚ) :
    (applyEffect e s).length = min e.length s.length := by
  simp [applyEffect]

/-- Within the common range, the updated state is the elementwise sum of
the old state and the effect vector. -/
theorem applyEffect_getD :
    ∀ (e s : List ℚ) (j : ℕ), j < e.length → j < s.length →
      (applyEffect e s).getD j 0 = s.getD j 0 + e.getD j 0
  | [], _, j, hje, _ => absurd hje (by simp)
  | _ :: _, [], j, _, hjs => absurd hjs (by simp)
  | a :: as, b :: bs, 0, _, _ => by
    simp [applyEffect]
    ring
  | a :: as, b :: bs, j + 1, hje, hjs => by
    have := applyEffect_getD as bs j (by simpa using hje) (by simpa using hjs)
    simpa [applyEffect] using this

/-- C3: for every non-empty list of non-negative weights and every
uniform draw `r ∈ [0, 1)` — so that `u = r * sum(weights)` ranges over
`[0, sum(weights))` — `sample_index` returns the smallest index `i`
with `weights[0] + ... + weights[i] ≥ u`; in particular, on the
single-element list `[5.0]` it always returns index 0. -/
theorem claim_C3_sample_index_inverse_cdf :
    (∀ (inp : List ℚ) (r : ℚ), inp ≠ [] → (∀ w ∈ inp, 0 ≤ w) →
      0 ≤ r → r < 1 →
      ∃ i, sample_index inp r = Except.ok (some i) ∧
        r * inp.sum ≤ prefixSum inp i ∧
        ∀ j, j < i → prefixSum inp j < r * inp.sum) ∧
    (∀ r : ℚ, 0 ≤ r → r < 1 → sample_index [(5 : ℚ)] r = Except.ok (some 0)) := by
  constructor
  · intro inp r hne hnn _ h1
    obtain ⟨i, hi, _, hge, hmin⟩ := sample_index_spec inp r hne hnn h1
    exact ⟨i, hi, hge, hmin⟩
  · intro r _ h1
    obtain ⟨i, hi, hlt, _, _⟩ := sample_index_spec [(5 : ℚ)] r (by simp)
      (by intro w hw; simp only [List.mem_singleton] at hw; rw [hw]; norm_num) h1
    simp only [List.length_singleton] at hlt
    have hi0 : i = 0 := by omega
    rw [hi0] at hi
    exact hi

/-- Witness for C3 at weights `[2, 3]` and draw `r = 1/2`, i.e.
`u = 5/2`: the smallest index whose cumulative weight reaches `5/2`. -/
theorem claim_C3_witness :
    ([(2 : ℚ), 3] ≠ [] ∧ (∀ w ∈ [(2 : ℚ), 3], 0 ≤ w) ∧
      (0 : ℚ) ≤ 1/2 ∧ (1/2 : ℚ) < 1) ∧
    (∃ i, sample_index [(2 : ℚ), 3] (1/2) = Except.ok (some i) ∧
      (1/2 : ℚ) * ([(2 : ℚ), 3]).sum ≤ prefixSum [(2 : ℚ), 3] i ∧
      ∀ j, j < i → prefixSum [(2 : ℚ), 3] j < (1/2 : ℚ) * ([(2 : ℚ), 3]).sum) :=
  ⟨⟨by simp, by intro w hw; simp at hw; rcases hw with rfl | rfl <;> norm_num,
    by norm_num, by norm_num⟩,
   claim_C3_sample_index_inverse_cdf.1 [(2 : ℚ), 3] (1/2) (by simp)
     (by intro w hw; simp at hw; rcases hw with rfl | rfl <;> norm_num)
     (by norm_num) (by norm_num)⟩

/-- C8: under the sampler's preconditions and a uniform draw in
`[0, 1)`, the `None` branch is unreachable: the scan always produces an
in-range index. -/
theorem claim_C8_no_index_unreachable (inp : List ℚ) (r : ℚ)
    (hne : inp ≠ []) (hnn : ∀ w ∈ inp, 0 ≤ w) (hsum : 0 < inp.sum)
    (h0 : 0 ≤ r) (h1 : r < 1) :
    sample_index inp r ≠ Except.ok none ∧
    ∃ i, sample_index inp r = Except.ok (some i) ∧ i < inp.length := by
  obtain ⟨i, hi, hlt, _, _⟩ := sample_index_spec inp r hne hnn h1
  refine ⟨?_, i, hi, hlt⟩
  rw [hi]
  simp

/-- Witness for C8 at weights `[2, 3]` and draw `r = 1/2`. -/
theorem claim_C8_witness :
    ([(2 : ℚ), 3] ≠ [] ∧ (∀ w ∈ [(2 : ℚ), 3], 0 ≤ w) ∧
      (0 : ℚ) < ([(2 : ℚ), 3]).sum ∧ (0 : ℚ) ≤ 1/2 ∧ (1/2 : ℚ) < 1) ∧
    (sample_index [(2 : ℚ), 3] (1/2) ≠ Except.ok none ∧
      ∃ i, sample_index [(2 : ℚ), 3] (1/2) = Except.ok (some i) ∧
        i < ([(2 : ℚ), 3]).length) :=
  ⟨⟨by simp, by intro w hw; simp at hw; rcases hw with rfl | rfl <;> norm_num,
    by norm_num, by norm_num, by norm_num⟩,
   claim_C8_no_index_unreachable [(2 : ℚ), 3] (1/2) (by simp)
     (by intro w hw; simp at hw; rcases hw with rfl | rfl <;> norm_num)
     (by norm_num) (by norm_num) (by norm_num)⟩

/-- C5 counterexample: the all-zero weight list `[0]` has sum ≤ 0, yet
`sample_index` does not fail — it returns index 0.  (The source asserts
non-emptiness and non-negativity, but never that the sum is positive.) -/
theorem claim_C5_counterexample :
    sample_index [(0 : ℚ)] (1/2) = Except.ok (some 0) ∧
    ([(0 : ℚ)]).sum ≤ 0 ∧ [(0 : ℚ)] ≠ [] ∧ (∀ w ∈ [(0 : ℚ)], 0 ≤ w) := by
  refine ⟨?_, by simp, by simp, by simp⟩
  norm_num [sample_index, sampleScanGo]

/-- C5 as amended: `sample_index` fails with a precondition violation if
and only if its input is empty or contains a negative value; a
non-negative input with non-positive (i.e. zero) sum is not rejected. -/
theorem claim_C5_failure_iff (inp : List ℚ) (r : ℚ) :
    (∃ e, sample_index inp r = Except.error e) ↔
      inp = [] ∨ ∃ w ∈ inp, w < 0 := by
  by_cases hne : inp = []
  · subst hne
    constructor
    · intro _
      exact Or.inl rfl
    · intro _
      exact ⟨"AssertionError: sample_index requires a non-empty list",
        by simp [sample_index]⟩
  · by_cases hnn : ∀ w ∈ inp, 0 ≤ w
    · obtain ⟨o, ho⟩ := sample_index_ok inp r hne hnn
      constructor
      · rintro ⟨e, he⟩
        rw [ho] at he
        exact Except.noConfusion he
      · rintro (h | ⟨w, hw, hwneg⟩)
        · exact absurd h hne
        · exact absurd (hnn w hw) (not_le.mpr hwneg)
    · have hlen : 1 ≤ inp.length := List.length_pos.mpr hne
      constructor
      · intro _
        right
        push_neg at hnn
        obtain ⟨w, hw, hwneg⟩ := hnn
        exact ⟨w, hw, hwneg⟩
      · intro _
        exact ⟨"AssertionError: sample_index requires non-negative entries",
          by simp only [sample_index, if_pos hlen, if_neg hnn]⟩

/-- C7: `sample_delay` fails with a precondition violation exactly when
`λ ≤ 0`; for `λ > 0` and a uniform draw `U ∈ (0, 1)` it returns exactly
`-ln(U)/λ`, which is strictly positive. -/
theorem claim_C7_sample_delay (u lam : ℝ) (hu0 : 0 < u) (hu1 : u < 1) :
    ((∃ e, sample_delay u lam = Except.error e) ↔ lam ≤ 0) ∧
    (0 < lam →
      sample_delay u lam = Except.ok (-Real.log u / lam) ∧
      0 < -Real.log u / lam) := by
  have hlog : Real.log u < 0 := Real.log_neg hu0 hu1
  constructor
  · constructor
    · rintro ⟨e, he⟩
      by_contra hpos
      push_neg at hpos
      simp only [sample_delay, if_pos hpos] at he
      exact Except.noConfusion he
    · intro hneg
      exact ⟨"AssertionError: sample_delay requires a positive rate",
        by simp only [sample_delay, if_neg (not_lt.mpr hneg)]⟩
  · intro hlam
    constructor
    · simp only [sample_delay, if_pos hlam, Except.ok.injEq]
      ring
    · exact div_pos (neg_pos.mpr hlog) hlam

/-- Witness for C7 at `U = 1/2`, `λ = 2`. -/
theorem claim_C7_witness :
    ((0 : ℝ) < 1/2 ∧ (1/2 : ℝ) < 1 ∧ (0 : ℝ) < 2) ∧
    ((∃ e, sample_delay (1/2) 2 = Except.error e) ↔ (2 : ℝ) ≤ 0) ∧
    (sample_delay (1/2 : ℝ) 2 = Except.ok (-Real.log (1/2) / 2) ∧
      0 < -Real.log ((1/2 : ℝ)) / 2) :=
  ⟨⟨by norm_num, by norm_num, by norm_num⟩,
   (claim_C7_sample_delay (1/2) 2 (by norm_num) (by norm_num)).1,
   (claim_C7_sample_delay (1/2) 2 (by norm_num) (by norm_num)).2 (by norm_num)⟩

/-- C1: in every executed iteration of the loop, the time advances by
the sampled waiting time, the state is updated to `old_state + effect`
elementwise (exactly, in ℚ), and the record `(new_state, Δt, i, effect)`
is appended to the trajectory keyed by the advanced time. -/
theorem claim_C1_step_updates_and_records
    (delays idxDraws : ℕ → ℚ) (fuel k : ℕ) (acc : List (ℚ × TrajRecord))
    (ob ob2 : Outbreak) (t t2 : ℚ) (entry : TrajRecord)
    (ht : t < ob.runtime)
    (h : runStep ob t (delays k) (idxDraws k) = Except.ok (ob2, t2, entry)) :
    t2 = t + delays k ∧
    entry.eventDelay = delays k ∧
    entry.stateAfter = ob2.state ∧
    (effectsOf ob).get? entry.eventIdentity = some entry.eventDifferential ∧
    ob2.state = applyEffect entry.eventDifferential ob.state ∧
    (entry.eventDifferential.length = ob.state.length →
      ∀ j, j < ob.state.length →
        ob2.state.getD j 0
          = ob.state.getD j 0 + entry.eventDifferential.getD j 0) ∧
    runAux delays idxDraws (fuel + 1) ob t k acc
      = runAux delays idxDraws fuel ob2 t2 (k + 1) (acc ++ [(t2, entry)]) := by
  obtain ⟨ht2, hpar, hrt, hev, hstate, hrec, hdel, hget, hlt⟩ :=
    runStep_ok ob t (delays k) (idxDraws k) ob2 t2 entry h
  refine ⟨ht2, hdel, hrec, hget, hstate, ?_, ?_⟩
  · intro hlen j hj
    rw [hstate]
    exact applyEffect_getD _ _ j (by rw [hlen]; exact hj) hj
  · simp only [runAux, if_pos ht]
    rw [h]

/-- A concrete one-event outbreak used to witness the step claims. -/
def wOutbreak : Outbreak := ⟨[], 5, [10, 5], [⟨fun _ => 1, [-1, 1]⟩]⟩

/-- The object after one step of `wOutbreak`. -/
def wOutbreak2 : Outbreak := ⟨[], 5, [9, 6], [⟨fun _ => 1, [-1, 1]⟩]⟩

/-- The record produced by one step of `wOutbreak`. -/
def wEntry : TrajRecord := ⟨[9, 6], 1, 0, [-1, 1]⟩

/-- Witness for C1: one concrete iteration on state `[10, 5]` with
effect `[-1, 1]`, delay 1 and index draw 0. -/
theorem claim_C1_witness :
    ((0 : ℚ) < wOutbreak.runtime ∧
      runStep wOutbreak 0 1 0 = Except.ok (wOutbreak2, 1, wEntry)) ∧
    ((1 : ℚ) = 0 + 1 ∧
      wEntry.eventDelay = 1 ∧
      wEntry.stateAfter = wOutbreak2.state ∧
      (effectsOf wOutbreak).get? wEntry.eventIdentity
        = some wEntry.eventDifferential ∧
      wOutbreak2.state = applyEffect wEntry.eventDifferential wOutbreak.state ∧
      (wEntry.eventDifferential.length = wOutbreak.state.length →
        ∀ j, j < wOutbreak.state.length →
          wOutbreak2.state.getD j 0
            = wOutbreak.state.getD j 0 + wEntry.eventDifferential.getD j 0) ∧
      runAux (fun _ => 1) (fun _ => 0) 1 wOutbreak 0 0 []
        = runAux (fun _ => 1) (fun _ => 0) 0 wOutbreak2 1 1 ([] ++ [(1, wEntry)])) :=
  ⟨⟨by norm_num [wOutbreak],
    by norm_num [runStep, pmfOf, effectsOf, sample_index, sampleScanGo,
      applyEffect, wOutbreak, wOutbreak2, wEntry]⟩,
   claim_C1_step_updates_and_records (fun _ => 1) (fun _ => 0) 0 0 []
     wOutbreak wOutbreak2 0 1 wEntry (by norm_num [wOutbreak])
     (by norm_num [runStep, pmfOf, effectsOf, sample_index, sampleScanGo,
       applyEffect, wOutbreak, wOutbreak2, wEntry])⟩

/-- C6: an iteration aborts with one of the two validation assertion
failures exactly when some propensity is negative or the propensity sum
is not strictly positive; otherwise the iteration gets past
validation. -/
theorem claim_C6_validation_aborts_iff (ob : Outbreak) (t d r : ℚ) :
    ((∃ p ∈ pmfOf ob, p < 0) ∨ (pmfOf ob).sum ≤ 0) ↔
      (runStep ob t d r
          = Except.error "AssertionError: all(_ >= 0.0 for _ in pmf)" ∨
       runStep ob t d r = Except.error "AssertionError: sum(pmf) > 0.0") := by
  by_cases h1 : ∀ p ∈ pmfOf ob, 0 ≤ p
  · by_cases h2 : 0 < (pmfOf ob).sum
    · constructor
      · rintro (⟨p, hp, hpneg⟩ | hsum)
        · exact absurd (h1 p hp) (not_le.mpr hpneg)
        · exact absurd h2 (not_lt.mpr hsum)
      · intro hcontra
        have hne : pmfOf ob ≠ [] := by
          intro hnil
          rw [hnil] at h2
          simp at h2
        obtain ⟨o, ho⟩ := sample_index_ok (pmfOf ob) r hne h1
        rcases o with _ | i
        · rcases hcontra with hc | hc <;>
          · simp only [runStep, if_pos h1, if_pos h2, ho] at hc
            exact absurd (Except.error.inj hc) (by decide)
        · rcases hg : (effectsOf ob).get? i with _ | eff
          · rcases hcontra with hc | hc <;>
            · simp only [runStep, if_pos h1, if_pos h2, ho, hg] at hc
              exact absurd (Except.error.inj hc) (by decide)
          · rcases hcontra with hc | hc <;>
            · simp only [runStep, if_pos h1, if_pos h2, ho, hg] at hc
              exact Except.noConfusion hc
    · exact iff_of_true (Or.inr (not_lt.mp h2))
        (Or.inr (by simp only [runStep, if_pos h1, if_neg h2]))
  · refine iff_of_true (Or.inl ?_)
      (Or.inl (by simp only [runStep, if_neg h1]))
    push_neg at h1
    obtain ⟨p, hp, hpneg⟩ := h1
    exact ⟨p, hp, hpneg⟩

/-- C2: with a well-posed event set (strictly positive total propensity
at every state), index draws in `[0, 1)`, strictly positive waiting
times, and enough sampled waiting time to pass the horizon by step `N`,
the loop terminates within `N` iterations, and if at least one
iteration ran, the last recorded time is at or past the horizon (the
crossing iteration is recorded in full, not clipped). -/
theorem claim_C2_terminates_past_horizon (ob : Outbreak)
    (delays idxDraws : ℕ → ℚ) (N : ℕ)
    (Hwell : WellPosed ob.events ob.parameters)
    (hidx : ∀ m, 0 ≤ idxDraws m ∧ idxDraws m < 1)
    (hd : ∀ m, 0 < delays m)
    (hN : ob.runtime ≤ ∑ i in Finset.range N, delays i) :
    ∃ ob2 tr, ob.run delays idxDraws N = Except.ok (ob2, tr) ∧
      (tr ≠ [] → ∃ p, tr.getLast? = some p ∧ ob.runtime ≤ p.1) := by
  obtain ⟨res, hres⟩ := runAux_total delays idxDraws ob.events ob.parameters
    Hwell (fun m => (hidx m).2) N ob 0 0 [] rfl rfl (by simpa using hN)
  obtain ⟨ob2, tr⟩ := res
  refine ⟨ob2, tr, hres, ?_⟩
  intro hne
  obtain ⟨-, -, -, -, tfin, hhor, -, -, hcase⟩ :=
    runAux_spec delays idxDraws hd N ob 0 0 [] ob2 tr hres (by simp) (by simp)
  rcases hcase with ⟨htr, -, -⟩ | ⟨p, hp, hpt, -⟩
  · exact absurd htr hne
  · exact ⟨p, hp, by rw [hpt]; exact hhor⟩

/-- A minimal well-posed outbreak: runtime 1, one event of constant
propensity 1 and effect `[1]` on state `[0]`. -/
def wRunOutbreak : Outbreak := ⟨[], 1, [0], [⟨fun _ => 1, [1]⟩]⟩

/-- Witness for C2: the concrete run crosses the horizon in one step. -/
theorem claim_C2_witness :
    (WellPosed wRunOutbreak.events wRunOutbreak.parameters ∧
      (∀ m : ℕ, 0 ≤ (fun _ => (0 : ℚ)) m ∧ (fun _ => (0 : ℚ)) m < 1) ∧
      (∀ m : ℕ, (0 : ℚ) < (fun _ => (1 : ℚ)) m) ∧
      wRunOutbreak.runtime ≤ ∑ i in Finset.range 1, (fun _ => (1 : ℚ)) i) ∧
    (∃ ob2 tr, wRunOutbreak.run (fun _ => 1) (fun _ => 0) 1
        = Except.ok (ob2, tr) ∧
      (tr ≠ [] → ∃ p, tr.getLast? = some p ∧ wRunOutbreak.runtime ≤ p.1)) :=
  ⟨⟨by
      intro st
      refine ⟨?_, by simp [wRunOutbreak]⟩
      intro p hp
      simp [wRunOutbreak] at hp
      rw [hp]
      norm_num,
    fun m => ⟨le_refl 0, by norm_num⟩, fun m => one_pos,
    by simp [wRunOutbreak]⟩,
   claim_C2_terminates_past_horizon wRunOutbreak (fun _ => 1) (fun _ => 0) 1
     (by
       intro st
       refine ⟨?_, by simp [wRunOutbreak]⟩
       intro p hp
       simp [wRunOutbreak] at hp
       rw [hp]
       norm_num)
     (fun m => ⟨le_refl 0, by norm_num⟩) (fun m => one_pos)
     (by simp [wRunOutbreak])⟩

/-- C9: with strictly positive waiting times, the recorded times of a
completed run are strictly increasing, hence pairwise distinct — every
iteration adds a fresh key and overwrites nothing. -/
theorem claim_C9_strictly_increasing_times (ob : Outbreak)
    (delays idxDraws : ℕ → ℚ) (fuel : ℕ) (ob2 : Outbreak)
    (tr : List (ℚ × TrajRecord)) (hd : ∀ m, 0 < delays m)
    (h : ob.run delays idxDraws fuel = Except.ok (ob2, tr)) :
    (tr.map Prod.fst).Pairwise (· < ·) ∧ (tr.map Prod.fst).Nodup := by
  obtain ⟨-, -, -, hsort, -⟩ :=
    runAux_spec delays idxDraws hd fuel ob 0 0 [] ob2 tr h (by simp) (by simp)
  exact ⟨hsort, hsort.imp ne_of_lt⟩

/-- Witness for C9 on the concrete run of `wRunOutbreak`. -/
theorem claim_C9_witness :
    ((∀ m : ℕ, (0 : ℚ) < (fun _ => (1 : ℚ)) m) ∧
      wRunOutbreak.run (fun _ => 1) (fun _ => 0) 1
        = Except.ok (⟨[], 1, [1], [⟨fun _ => 1, [1]⟩]⟩, [(1, ⟨[1], 1, 0, [1]⟩)])) ∧
    (([((1 : ℚ), (⟨[1], 1, 0, [1]⟩ : TrajRecord))].map Prod.fst).Pairwise (· < ·) ∧
      ([((1 : ℚ), (⟨[1], 1, 0, [1]⟩ : TrajRecord))].map Prod.fst).Nodup) :=
  ⟨⟨fun m => one_pos,
    by norm_num [Outbreak.run, runAux, runStep, pmfOf, effectsOf, sample_index,
      sampleScanGo, applyEffect, wRunOutbreak]⟩,
   claim_C9_strictly_increasing_times wRunOutbreak (fun _ => 1) (fun _ => 0) 1
     ⟨[], 1, [1], [⟨fun _ => 1, [1]⟩]⟩ [(1, ⟨[1], 1, 0, [1]⟩)]
     (fun m => one_pos)
     (by norm_num [Outbreak.run, runAux, runStep, pmfOf, effectsOf, sample_index,
       sampleScanGo, applyEffect, wRunOutbreak])⟩

/-- C10: a completed run leaves `parameters`, `runtime` and `events`
exactly as constructed — only `state` is mutated — and when at least one
iteration ran, the final state equals the `state_after` of the
trajectory entry with the largest time key. -/
theorem claim_C10_frame_only_state (ob : Outbreak) (delays idxDraws : ℕ → ℚ)
    (fuel : ℕ) (ob2 : Outbreak) (tr : List (ℚ × TrajRecord))
    (hd : ∀ m, 0 < delays m)
    (h : ob.run delays idxDraws fuel = Except.ok (ob2, tr)) :
    ob2.parameters = ob.parameters ∧ ob2.runtime = ob.runtime ∧
    ob2.events = ob.events ∧
    (tr ≠ [] → ∃ p, tr.getLast? = some p ∧ ob2.state = p.2.stateAfter ∧
      ∀ q ∈ tr, q.1 ≤ p.1) := by
  obtain ⟨hpar, hrt, hev, -, tfin, -, -, hall, hcase⟩ :=
    runAux_spec delays idxDraws hd fuel ob 0 0 [] ob2 tr h (by simp) (by simp)
  refine ⟨hpar, hrt, hev, ?_⟩
  intro hne
  rcases hcase with ⟨htr, -, -⟩ | ⟨p, hp, hpt, hps⟩
  · exact absurd htr hne
  · exact ⟨p, hp, hps, fun q hq => by rw [hpt]; exact hall q hq⟩

/-- Witness for C10 on the concrete run of `wRunOutbreak`. -/
theorem claim_C10_witness :
    ((∀ m : ℕ, (0 : ℚ) < (fun _ => (1 : ℚ)) m) ∧
      wRunOutbreak.run (fun _ => 1) (fun _ => 0) 1
        = Except.ok (⟨[], 1, [1], [⟨fun _ => 1, [1]⟩]⟩, [(1, ⟨[1], 1, 0, [1]⟩)])) ∧
    ((⟨[], 1, [1], [⟨fun _ => 1, [1]⟩]⟩ : Outbreak).parameters
        = wRunOutbreak.parameters ∧
      (⟨[], 1, [1], [⟨fun _ => 1, [1]⟩]⟩ : Outbreak).runtime
        = wRunOutbreak.runtime ∧
      (⟨[], 1, [1], [⟨fun _ => 1, [1]⟩]⟩ : Outbreak).events
        = wRunOutbreak.events ∧
      ([((1 : ℚ), (⟨[1], 1, 0, [1]⟩ : TrajRecord))] ≠ [] →
        ∃ p, [((1 : ℚ), (⟨[1], 1, 0, [1]⟩ : TrajRecord))].getLast? = some p ∧
          (⟨[], 1, [1], [⟨fun _ => 1, [1]⟩]⟩ : Outbreak).state = p.2.stateAfter ∧
          ∀ q ∈ [((1 : ℚ), (⟨[1], 1, 0, [1]⟩ : TrajRecord))], q.1 ≤ p.1)) :=
  ⟨⟨fun m => one_pos,
    by norm_num [Outbreak.run, runAux, runStep, pmfOf, effectsOf, sample_index,
      sampleScanGo, applyEffect, wRunOutbreak]⟩,
   claim_C10_frame_only_state wRunOutbreak (fun _ => 1) (fun _ => 0) 1
     ⟨[], 1, [1], [⟨fun _ => 1, [1]⟩]⟩ [(1, ⟨[1], 1, 0, [1]⟩)]
     (fun m => one_pos)
     (by norm_num [Outbreak.run, runAux, runStep, pmfOf, effectsOf, sample_index,
       sampleScanGo, applyEffect, wRunOutbreak])⟩

/-- A one-event outbreak whose effect vector (length 1) does not match
its state (length 3). -/
def mismatchOutbreak : Outbreak := ⟨[], 10, [1, 2, 3], [⟨fun _ => 1, [1]⟩]⟩

/-- C4 counterexample: applying a length-1 effect to the length-3 state
during a run iteration does not fail with an arithmetic error — the
iteration succeeds and the state is silently truncated to `[2]`. -/
theorem claim_C4_counterexample :
    stepState (runStep mismatchOutbreak 0 1 0) = some [2] ∧
    effectsOf mismatchOutbreak = [[1]] ∧
    mismatchOutbreak.state.length = 3 := by
  refine ⟨?_, by simp [effectsOf, mismatchOutbreak], by simp [mismatchOutbreak]⟩
  norm_num [stepState, runStep, pmfOf, effectsOf, sample_index, sampleScanGo,
    applyEffect, mismatchOutbreak]

/-- C4 as amended: a dimensional mismatch is not checked at construction
(beyond the effect being a list) and does not surface as a failure at
application time either: the iteration succeeds, and the new state is
the zip of effect and state — truncated to the shorter length. -/
theorem claim_C4_mismatch_truncates (ob : Outbreak) (t d r : ℚ)
    (hnn : ∀ p ∈ pmfOf ob, 0 ≤ p) (hpos : 0 < (pmfOf ob).sum) (h1 : r < 1) :
    ∃ ob2 t2 entry, runStep ob t d r = Except.ok (ob2, t2, entry) ∧
      ob2.state = applyEffect entry.eventDifferential ob.state ∧
      ob2.state.length = min entry.eventDifferential.length ob.state.length := by
  obtain ⟨ob2, t2, entry, hstep⟩ := runStep_isOk ob t d r hnn hpos h1
  obtain ⟨-, -, -, -, hstate, -, -, -, -⟩ :=
    runStep_ok ob t d r ob2 t2 entry hstep
  exact ⟨ob2, t2, entry, hstep, hstate, by rw [hstate, applyEffect_length]⟩

/-- Witness for the amended C4 on the mismatched outbreak. -/
theorem claim_C4_witness :
    ((∀ p ∈ pmfOf mismatchOutbreak, 0 ≤ p) ∧ 0 < (pmfOf mismatchOutbreak).sum ∧
      (0 : ℚ) < 1) ∧
    (∃ ob2 t2 entry, runStep mismatchOutbreak 0 1 0 = Except.ok (ob2, t2, entry) ∧
      ob2.state = applyEffect entry.eventDifferential mismatchOutbreak.state ∧
      ob2.state.length
        = min entry.eventDifferential.length mismatchOutbreak.state.length) :=
  ⟨⟨by
      intro p hp
      simp [pmfOf, mismatchOutbreak] at hp
      rw [hp]
      norm_num,
    by simp [pmfOf, mismatchOutbreak], by norm_num⟩,
   claim_C4_mismatch_truncates mismatchOutbreak 0 1 0
     (by
       intro p hp
       simp [pmfOf, mismatchOutbreak] at hp
       rw [hp]
       norm_num)
     (by simp [pmfOf, mismatchOutbreak]) (by norm_num)⟩

end Epidemios
